import Mathlib

/-!
# Verification of the changelog commit-to-category pipeline

Shallow embedding of the core pipeline of `src/changelog.ts` (class
`Changelog`): commit parsing (`toCommitInfos`), concurrent issue/PR
enrichment (`downloadIssueData`, modelled as a cooperative small-step
scheduler), PR extraction (`extractPullRequestInfo`), category assignment
(`assignToCategories`), release grouping (`groupByRelease`) and contributor
collection (`getCommitters` / `ignoreCommitter`).

JavaScript plain objects used as dictionaries (`labels`, `committers`,
`releaseMap`) are modelled as insertion-ordered association lists; JS
`Set`/`Map` as insertion-ordered lists; JS truthiness is made explicit at
each use site (`""`, `0`, `null`/`undefined` are falsy; objects and arrays,
including the empty array, are truthy).
-/

namespace Changelog

/-! ## Data model (from `github-api.ts` and `interfaces.ts`) -/

/-- `author { login url avatarUrl }` node of the GraphQL PR response. -/
structure Author where
  login : String
  url : String
  avatarUrl : String
deriving DecidableEq, Repr

/-- A pull-request object as returned in `associatedPullRequests.nodes` by
`GithubAPI.getPRForCommit`, plus the `categories` field that
`assignToCategories` attaches later (absent = `none`). -/
structure PullReq where
  number : Nat
  title : String
  url : String
  merged : Bool
  baseRefName : String
  headRefName : String
  author : Option Author
  categories : Option (List String) := none
deriving DecidableEq, Repr

/-- A node of `closingIssuesReferences` as returned by
`GithubAPI.getLinkedIssues`. `issueTypeName` models `issueType?.name`
(`none` when the issue has no type). -/
structure LinkedIssue where
  number : Nat
  title : String
  issueTypeName : Option String
deriving DecidableEq, Repr

/-- An issue fetched by `GithubAPI.getIssueData` (attached as
`githubIssue`); its contents are irrelevant to the claims. -/
structure IssueRec where
  number : Nat
  title : String
deriving DecidableEq, Repr

/-- One raw commit record as produced by `Git.listCommits`
(`{ sha, refName, summary, date }`); `refName` is the raw ref-decoration
string. -/
structure CommitListItem where
  sha : String
  refName : String
  summary : String
  date : String
deriving DecidableEq, Repr

/-- `CommitInfo` of `interfaces.ts`. `tags`/enrichment fields are optional
(`undefined` = `none`); `issueNumber` is the digit string extracted from
the commit message, or `none`. -/
structure CommitRec where
  commitSHA : String
  message : String
  tags : Option (List String) := none
  issueNumber : Option String := none
  date : String
  githubPr : Option PullReq := none
  githubIssue : Option IssueRec := none
  linkedIssues : Option (List LinkedIssue) := none
deriving DecidableEq, Repr

/-- `Release` of `interfaces.ts`. -/
structure Release where
  name : String
  date : Option String := none
  pullRequests : List PullReq
  contributors : Option (List Author) := none
deriving DecidableEq, Repr

/-! ## JS-container helpers -/

/-- Own-property lookup on a plain JS object modelled as an
insertion-ordered association list. -/
def jsLookup (m : List (String × String)) (k : String) : Option String :=
  (m.find? (fun p => p.1 == k)).map (·.2)

/-- `Set<string>.add`: insertion-ordered, duplicates collapse. -/
def addToSet (s : List String) (x : String) : List String :=
  if s.contains x then s else s ++ [x]

/-- Leftmost occurrence of `sep` in `s`: `some (before, after)` split
around the first match, `none` when `sep` does not occur. -/
def splitFirst (sep : List Char) : List Char → Option (List Char × List Char)
  | [] => none
  | c :: rest =>
    if sep.isPrefixOf (c :: rest) then some ([], (c :: rest).drop sep.length)
    else
      match splitFirst sep rest with
      | some (pre, post) => some (c :: pre, post)
      | none => none

/-- Fuelled worker for `jsSplit`. -/
def jsSplitGo (sep : List Char) : Nat → List Char → List (List Char)
  | 0, s => [s]
  | fuel + 1, s =>
    match splitFirst sep s with
    | none => [s]
    | some (pre, post) => pre :: jsSplitGo sep fuel post

/-- JS `String.prototype.split` with a non-empty separator: repeatedly cut
at the leftmost occurrence (the fuel `s.length + 1` always suffices since
every cut consumes at least one character of `s`). -/
def jsSplit (sep s : List Char) : List (List Char) :=
  jsSplitGo sep (s.length + 1) s

/-! ## CommitParser: `toCommitInfos` (changelog.ts lines 115-143) -/

/-- The `tags` computation of `toCommitInfos`: when `refName.length > 1`
(JS string length), split the ref-decoration string on `", "`, keep the
entries starting with `"tag: "` and strip that prefix; otherwise leave the
field `undefined`. -/
def parseRefTags (refName : String) : Option (List String) :=
  if refName.length > 1 then
    some
      (((jsSplit ", ".data refName.data).filter
          (fun ref => "tag: ".data.isPrefixOf ref)).map
        (fun ref => String.mk (ref.drop "tag: ".data.length)))
  else none

/-- `toCommitInfos`, parameterised by the inline PR/issue-number extractor
(`findPullRequestId`, whose source file is external to the embedded core;
only its `string | null` result shape matters here). -/
def toCommitInfos (findPrId : String → Option String)
    (commits : List CommitListItem) : List CommitRec :=
  commits.map fun commit =>
    { commitSHA := commit.sha
      message := commit.summary
      tags := parseRefTags commit.refName
      issueNumber := findPrId commit.summary
      date := commit.date }

/-! ## PR extraction: `extractPullRequestInfo` (lines 271-283) -/

/-- Worker for `extractPullRequestInfo`: walk the commits, pushing
`commit.githubPr` when present with a truthy (non-zero) `number` not yet
in the seen-set. -/
def extractGo : List CommitRec → List PullReq → List Nat → List PullReq
  | [], prs, _ => prs
  | c :: rest, prs, seen =>
    match c.githubPr with
    | some p =>
      if p.number != 0 && !(seen.contains p.number) then
        extractGo rest (prs ++ [p]) (seen ++ [p.number])
      else extractGo rest prs seen
    | none => extractGo rest prs seen

/-- `extractPullRequestInfo`: single pass, deduplicating by PR number via
the `seenPullRequestNumbers` set. -/
def extractPullRequestInfo (commits : List CommitRec) : List PullReq :=
  extractGo commits [] []

/-! ## CategoryAssigner: `assignToCategories` (lines 285-311) -/

/-- `c.githubPr?.number === n`. -/
def refsNumB (c : CommitRec) (n : Nat) : Bool :=
  match c.githubPr with
  | some p => p.number == n
  | none => false

/-- Step 1 of `assignToCategories`: all linked issues of all commits whose
`githubPr?.number` equals `n`. -/
def gatherLinkedIssues (commits : List CommitRec) (n : Nat) : List LinkedIssue :=
  ((commits.filter (fun c => refsNumB c n)).map
    (fun c => c.linkedIssues.getD [])).flatten

/-- Step 2's per-issue category: `issue.issueType?.name?.toLowerCase()`,
then (if truthy) the `labels` lookup, kept only when the looked-up display
string is itself truthy. -/
def categoryOf (labels : List (String × String)) (issue : LinkedIssue) :
    Option String :=
  match issue.issueTypeName with
  | none => none
  | some name =>
    let ty := name.toLower
    if ty == "" then none
    else
      match jsLookup labels ty with
      | some cat => if cat == "" then none else some cat
      | none => none

/-- Steps 2-3 of `assignToCategories` for one PR number: fold the linked
issues into an insertion-ordered set, then fall back to the
`"uncategorized"` mapping (when truthy) if the set is empty. -/
def computeCats (labels : List (String × String)) (commits : List CommitRec)
    (n : Nat) : List String :=
  let cats := (gatherLinkedIssues commits n).foldl
    (fun s issue =>
      match categoryOf labels issue with
      | some cat => addToSet s cat
      | none => s) []
  if cats.length == 0 then
    match jsLookup labels "uncategorized" with
    | some fallback => if fallback == "" then cats else addToSet cats fallback
    | none => cats
  else cats

/-- Step 4 for one PR: assign the final array. -/
def assignOne (labels : List (String × String)) (commits : List CommitRec)
    (pr : PullReq) : PullReq :=
  { pr with categories := some (computeCats labels commits pr.number) }

/-- `assignToCategories` (the in-place mutation of each `pr.categories`
rendered as a map over the PR list). -/
def assignToCategories (labels : List (String × String)) (prs : List PullReq)
    (commits : List CommitRec) : List PullReq :=
  prs.map (assignOne labels commits)

/-! ## ReleaseGrouper: `groupByRelease` (lines 213-234) -/

/-- The `___unreleased___` sentinel. -/
def UNRELEASED_TAG : String := "___unreleased___"

/-- Modelled from the spec: `Git.getTagDate` lives in `git.ts`, which is
not part of the embedded core; the spec's VersionControlSource interface
gives `tagDate(tag) -> date string | null` ("resolving a tag's date"), so
it is modelled as a lookup in the repository's tag-to-date table,
returning `none` for a ref that is not a tag. -/
def getTagDate (tagDates : List (String × String)) (tag : String) :
    Option String :=
  (tagDates.find? (fun p => p.1 == tag)).map (·.2)

/-- The skip test of `groupByRelease`:
`pr.categories && pr.categories.length === 0` (an array, even empty, is
truthy; `undefined` is falsy). -/
def skippedByGrouping (pr : PullReq) : Bool :=
  pr.categories == some []

/-- Loop body of `groupByRelease`: skip a PR with a defined empty
category array, otherwise create the release under `key` on first use and
push the PR onto it (the `releaseMap` object is modelled as an
insertion-ordered association list). -/
def groupStep (key : String) (tagDate : Option String)
    (m : List (String × Release)) (pr : PullReq) : List (String × Release) :=
  if skippedByGrouping pr then m
  else
    let m :=
      if (m.find? (fun p => p.1 == key)).isNone then
        m ++ [(key, { name := key, date := tagDate, pullRequests := [] })]
      else m
    m.map fun p =>
      if p.1 == key then
        (p.1, { p.2 with pullRequests := p.2.pullRequests ++ [pr] })
      else p

/-- `groupByRelease`: all surviving PRs are pushed under the single key
`to === "HEAD" ? UNRELEASED_TAG : to`, the release being created with
`date: tagDate` on first use. -/
def groupByRelease (tagDates : List (String × String)) (prs : List PullReq)
    (toRef : String) : List Release :=
  (prs.foldl
    (groupStep (if toRef == "HEAD" then UNRELEASED_TAG else toRef)
      (getTagDate tagDates toRef)) []).map (·.2)

/-! ## ContributorCollector: `getCommitters` / `ignoreCommitter` (lines 98-113) -/

/-- `login.indexOf(c) > -1`: substring containment. -/
def jsIncludesSub (login c : String) : Bool :=
  decide (c.data <:+: login.data)

/-- `ignoreCommitter`: some ignore entry equals the login or occurs in it
as a substring. -/
def ignoreCommitter (ignoreCommitters : List String) (login : String) : Bool :=
  ignoreCommitters.any (fun c => c == login || jsIncludesSub login c)

/-- Loop body of `getCommitters`: `pr.author?.login` must be truthy, not
ignored, and not yet a key of the `committers` object
(`!committers[login]`); then the author is inserted under its login. -/
def committerStep (ignoreCommitters : List String)
    (m : List (String × Author)) (pr : PullReq) : List (String × Author) :=
  match pr.author with
  | some a =>
    if a.login != "" && !(ignoreCommitter ignoreCommitters a.login)
        && (m.find? (fun p => p.1 == a.login)).isNone then
      m ++ [(a.login, a)]
    else m
  | none => m

/-- `getCommitters`: walk the PR list, keeping the first author per truthy
login that is not ignored, in a login-keyed insertion-ordered object, and
emit its values. -/
def getCommitters (ignoreCommitters : List String) (prs : List PullReq) :
    List Author :=
  (prs.foldl (committerStep ignoreCommitters) []).map (·.2)

/-! ## PullRequestResolver: `downloadIssueData` (lines 145-211)

The enrichment runs the per-commit mapper under `pMap` with
`concurrency: 5` on a single-threaded cooperative scheduler: a mapper
executes atomically between `await` suspension points.  The model below is
a small-step machine whose states record each mapper's continuation
(`TaskPhase`), the `prCache` (a `Map` from PR number to an index into an
arena of promise objects), and the log of remote requests in issue order.
A schedule chooses which suspended computation resumes next; resuming an
`await` of a remote call means its response (drawn from the deterministic
environment `GhEnv`) has arrived. -/

/-- JS `parseInt(s, 10)` restricted to the plain digit sequences produced
by the inline reference extractor (`none` models `NaN`). -/
def jsParseInt (s : String) : Option Nat :=
  if s != "" && s.data.all (fun c => c.isDigit) then
    some (s.data.foldl (fun n c => n * 10 + (c.toNat - '0'.toNat)) 0)
  else none

/-- Truthiness of the `prNumber` local (`null`, `NaN` and `0` are falsy). -/
def prTruthy : Option Nat → Bool
  | some n => n != 0
  | none => false

/-- Truthiness of `commitInfo.issueNumber` (a `string | null`). -/
def issTruthy : Option String → Bool
  | some s => s != ""
  | none => false

/-- The acceptance test of lines 156 and 167:
`pr && pr.merged && pr.number && baseBranchNames.includes(pr.baseRefName)`. -/
def acceptPR (baseBranchNames : List String) : Option PullReq → Bool
  | some p => p.merged && p.number != 0 && baseBranchNames.contains p.baseRefName
  | none => false

/-- Deterministic environment supplying the remote responses:
`prForCommit` is the `pr` field of `getPRForCommit` (first associated PR
node or `null`), keyed by commit SHA; `linkedIssues` is
`getLinkedIssues` keyed by PR number; `issueData` is `getIssueData` keyed
by the issue-number string. -/
structure GhEnv where
  prForCommit : String → Option PullReq
  linkedIssues : Nat → List LinkedIssue
  issueData : String → IssueRec

/-- One remote request, as recorded in issue order. -/
inductive RemoteCall where
  | prLookup (sha : String)
  | linkedLookup (prNumber : Nat)
  | issueLookup (issueNumber : String)
deriving DecidableEq, Repr

/-- The fulfillment value of a cache entry's promise: the
`{ pr, linkedIssues }` object built when the entry's IIFE resumes. Its
`pr` field is the one later back-filled in place. -/
structure EntryRes where
  pr : Option PullReq
  linkedIssues : List LinkedIssue
deriving DecidableEq, Repr

/-- One `prCache` promise: the PR number it was created for, the creating
mapper's `foundPr` (read by the IIFE when it resumes), and the result
object (`none` while the `getLinkedIssues` await is pending). -/
structure CacheEntry where
  prNumber : Nat
  prAtCreation : Option PullReq
  result : Option EntryRes := none
deriving DecidableEq, Repr

/-- Continuation of one per-commit mapper: which `await` it is suspended
at, together with the live locals it still needs. -/
inductive TaskPhase where
  | start
  | awaitFirstLookup
  | awaitSecondLookup (prNumber : Nat)
  | awaitEntry (entryIdx : Nat) (foundPr : Option PullReq)
  | awaitIssue
  | done
deriving DecidableEq, Repr

/-- Per-commit mapper state: continuation plus the enrichment fields the
mapper has written onto its `commitInfo`. -/
structure TaskState where
  phase : TaskPhase
  githubPr : Option PullReq := none
  githubIssue : Option IssueRec := none
  linkedIssues : Option (List LinkedIssue) := none
deriving DecidableEq, Repr

/-- Global state of `downloadIssueData`: one task per commit (parallel to
the commit list), the promise arena, the `prCache` map (PR number to arena
index; `Map.set` overwrites), and the remote-request log. -/
structure DlState where
  tasks : List TaskState
  entries : List CacheEntry := []
  cache : List (Nat × Nat) := []
  calls : List RemoteCall := []
deriving DecidableEq, Repr

/-- `prCache.get`. -/
def cacheGet (m : List (Nat × Nat)) (k : Nat) : Option Nat :=
  (m.find? (fun p => p.1 == k)).map (·.2)

/-- `prCache.set`: overwrite the existing binding or append a new one. -/
def cacheSet (m : List (Nat × Nat)) (k v : Nat) : List (Nat × Nat) :=
  if (m.find? (fun p => p.1 == k)).isSome then
    m.map (fun p => if p.1 == k then (k, v) else p)
  else m ++ [(k, v)]

/-- Replace task `i`'s state. -/
def setTask (s : DlState) (i : Nat) (t : TaskState) : DlState :=
  { s with tasks := s.tasks.set i t }

/-- Lines 171-181 once the cache decision is to create: invoke the IIFE
(which synchronously issues `getLinkedIssues` and suspends), install the
pending promise under `prNumber` — overwriting any binding already there —
then read the binding back and await it. -/
def installEntry (i prNumber : Nat) (foundPr : Option PullReq) (s : DlState)
    (t : TaskState) : DlState :=
  let k := s.entries.length
  let s := { s with
    entries := s.entries ++ [{ prNumber := prNumber, prAtCreation := foundPr }],
    calls := s.calls ++ [RemoteCall.linkedLookup prNumber],
    cache := cacheSet s.cache prNumber k }
  setTask s i { t with phase := .awaitEntry k foundPr }

/-- Suspend at the line 155 `getPRForCommit` await (the request is issued
now; its response is consumed on resume). -/
def suspendFirstLookup (c : CommitRec) (i : Nat) (s : DlState)
    (t : TaskState) : DlState :=
  let s := { s with calls := s.calls ++ [RemoteCall.prLookup c.commitSHA] }
  setTask s i { t with phase := .awaitFirstLookup }

/-- Lines 162-181 (entered with a truthy `prNumber`), run synchronously up
to the next suspension: on a cache hit await the cached promise; on a miss
either suspend at the line 166 `getPRForCommit` await (when `foundPr` is
still null) or install the entry. -/
def cacheStep (c : CommitRec) (i prNumber : Nat) (foundPr : Option PullReq)
    (s : DlState) (t : TaskState) : DlState :=
  match cacheGet s.cache prNumber with
  | some k => setTask s i { t with phase := .awaitEntry k foundPr }
  | none =>
    if foundPr.isNone then
      let s := { s with calls := s.calls ++ [RemoteCall.prLookup c.commitSHA] }
      setTask s i { t with phase := .awaitSecondLookup prNumber }
    else installEntry i prNumber foundPr s t

/-- Lines 195-198 and 203-206 (textually identical): fetch the issue by
its inline number when present and not yet fetched, then tick and return. -/
def finishStep (c : CommitRec) (i : Nat) (s : DlState) (t : TaskState) :
    DlState :=
  if issTruthy c.issueNumber && t.githubIssue.isNone then
    let s := { s with calls := s.calls ++ [RemoteCall.issueLookup (c.issueNumber.getD "")] }
    setTask s i { t with phase := .awaitIssue }
  else setTask s i { t with phase := .done }

/-- The mapper's first synchronous block (lines 150-155): compute
`prNumber` from the inline issue number; when it is falsy, suspend at the
first `getPRForCommit`, otherwise continue into the cache logic. -/
def startStep (c : CommitRec) (i : Nat) (s : DlState) (t : TaskState) :
    DlState :=
  match c.issueNumber with
  | some str =>
    if str != "" then
      match jsParseInt str with
      | some n =>
        if n != 0 then cacheStep c i n none s t
        else suspendFirstLookup c i s t
      | none => suspendFirstLookup c i s t
    else suspendFirstLookup c i s t
  | none => suspendFirstLookup c i s t

/-- Resume after the line 155 lookup (lines 156-160): accept the
discovered PR only when merged, numbered and based on a configured branch;
on acceptance continue into the cache logic with `prNumber = pr.number`,
otherwise fall through to the no-PR fallback. -/
def firstLookupStep (cfg : List String) (env : GhEnv) (c : CommitRec)
    (i : Nat) (s : DlState) (t : TaskState) : DlState :=
  match env.prForCommit c.commitSHA with
  | some p =>
    if acceptPR cfg (some p) then cacheStep c i p.number (some p) s t
    else finishStep c i s t
  | none => finishStep c i s t

/-- Resume after the line 166 lookup (lines 167-181): set `foundPr` on
acceptance, then install the entry unconditionally — the cache is not
re-checked after this suspension. -/
def secondLookupStep (cfg : List String) (env : GhEnv) (c : CommitRec)
    (i prNumber : Nat) (s : DlState) (t : TaskState) : DlState :=
  let found := env.prForCommit c.commitSHA
  let foundPr := if acceptPR cfg found then found else none
  installEntry i prNumber foundPr s t

/-- Resume after the line 181 await (enabled only once the entry's promise
is resolved): back-fill the result's `pr` in place when it is null and
this mapper found the full object (lines 186-188), copy the result onto
the commit (lines 191-192), then run lines 195-198. -/
def entryResumeStep (c : CommitRec) (i k : Nat) (foundPr : Option PullReq)
    (s : DlState) (t : TaskState) : DlState :=
  match s.entries[k]? with
  | some en =>
    match en.result with
    | some r =>
      if r.pr.isNone && foundPr.isSome then
        finishStep c i
          { s with entries := s.entries.set k { en with result := some { r with pr := foundPr } } }
          { t with githubPr := foundPr, linkedIssues := some r.linkedIssues }
      else
        finishStep c i s
          { t with githubPr := r.pr, linkedIssues := some r.linkedIssues }
    | none => s
  | none => s

/-- Resume after a `getIssueData` await: attach the issue, tick, return. -/
def issueResumeStep (env : GhEnv) (c : CommitRec) (i : Nat) (s : DlState)
    (t : TaskState) : DlState :=
  setTask s i { t with githubIssue := some (env.issueData (c.issueNumber.getD "")), phase := .done }

/-- Number of mappers that have returned. -/
def finishedCount (s : DlState) : Nat :=
  s.tasks.countP (fun t => t.phase == TaskPhase.done)

/-- Dispatch one step of task `i` (a no-op when the chosen task does not
exist, is done, is gated by the 5-wide `pMap` pool, or awaits a promise
that is still pending). `pMap` starts mappers in list order with at most
5 unfinished ones started, so task `i` may take its first step exactly
when `i < 5 + finishedCount`. -/
def taskStep (cfg : List String) (env : GhEnv) (commits : List CommitRec)
    (s : DlState) (i : Nat) : DlState :=
  match s.tasks[i]?, commits[i]? with
  | some t, some c =>
    match t.phase with
    | .start => if i < 5 + finishedCount s then startStep c i s t else s
    | .awaitFirstLookup => firstLookupStep cfg env c i s t
    | .awaitSecondLookup n => secondLookupStep cfg env c i n s t
    | .awaitEntry k fp => entryResumeStep c i k fp s t
    | .awaitIssue => issueResumeStep env c i s t
    | .done => s
  | _, _ => s

/-- The `getLinkedIssues` response for entry `k` arrives: its IIFE resumes
and fulfills the promise with `{ pr: foundPr, linkedIssues }` (a no-op for
an already-resolved entry). -/
def entryResolveStep (env : GhEnv) (s : DlState) (k : Nat) : DlState :=
  match s.entries[k]? with
  | some en =>
    match en.result with
    | none =>
      let en' : CacheEntry :=
        { en with result := some { pr := en.prAtCreation,
                                   linkedIssues := env.linkedIssues en.prNumber } }
      { s with entries := s.entries.set k en' }
    | some _ => s
  | none => s

/-- One scheduler choice: resume mapper `i`, or deliver the linked-issues
response of cache entry `k`. -/
inductive SchedEv where
  | task (i : Nat)
  | entry (k : Nat)
deriving DecidableEq, Repr

/-- One small step of the cooperative scheduler. -/
def dlStep (cfg : List String) (env : GhEnv) (commits : List CommitRec)
    (s : DlState) (e : SchedEv) : DlState :=
  match e with
  | .task i => taskStep cfg env commits s i
  | .entry k => entryResolveStep env s k

/-- Initial state: every mapper at its entry point, empty cache and log. -/
def dlInit (commits : List CommitRec) : DlState :=
  { tasks := commits.map (fun _ => { phase := .start }) }

/-- Run `downloadIssueData` under a given schedule. -/
def runDl (cfg : List String) (env : GhEnv) (commits : List CommitRec)
    (sched : List SchedEv) : DlState :=
  sched.foldl (dlStep cfg env commits) (dlInit commits)

/-- A mapper that never enriches its commit: still at its entry point,
suspended at the first commit-to-PR lookup, or finished, with none of
`githubPr`, `githubIssue`, `linkedIssues` written. -/
def UntouchedTask (t : TaskState) : Prop :=
  (t.phase = .start ∨ t.phase = .awaitFirstLookup ∨ t.phase = .done)
  ∧ t.githubPr = none ∧ t.githubIssue = none ∧ t.linkedIssues = none

/-- Reachability invariant: every `foundPr` held by a mapper awaiting a
cache entry is either null or the accepted result of that mapper's own
commit-to-PR lookup. -/
def FoundPrInv (cfg : List String) (env : GhEnv) (commits : List CommitRec)
    (s : DlState) : Prop :=
  ∀ (i : Nat) (t : TaskState), s.tasks[i]? = some t →
    ∀ (k : Nat) (fp : Option PullReq), t.phase = .awaitEntry k fp →
      fp = none ∨ ∃ c : CommitRec, commits[i]? = some c
        ∧ fp = env.prForCommit c.commitSHA ∧ acceptPR cfg fp = true

/-! ## Spec-side definitions

Definitions in this section follow the wording of the specification (not
the source); the theorems below compare them with the source-derived
functions above. -/

/-- The spec's reading of the tag rule: split only "if the ref-decoration
field names more than one ref" — i.e. when splitting on `", "` yields more
than one entry — and otherwise leave `tags` undefined. -/
def tagsSpecClaim (refName : String) : Option (List String) :=
  if (jsSplit ", ".data refName.data).length > 1 then
    some
      (((jsSplit ", ".data refName.data).filter
          (fun ref => "tag: ".data.isPrefixOf ref)).map
        (fun ref => String.mk (ref.drop "tag: ".data.length)))
  else none

/-- The amended tag rule: the split happens whenever the ref-decoration
string is longer than one character (in particular for a decoration naming
a single ref), and `tags` stays undefined only for strings of length at
most one; kept entries are exactly those carrying the `"tag: "` prefix,
with the prefix stripped. -/
def tagsSpecAmended (refName : String) : Option (List String) :=
  if refName.length ≤ 1 then none
  else
    some ((jsSplit ", ".data refName.data).filterMap
      (fun ref =>
        if "tag: ".data.isPrefixOf ref then
          some (String.mk (ref.drop "tag: ".data.length))
        else none))

/-- The configured `"uncategorized"` fallback, as the code tests it: the
`labels` lookup, kept only when truthy (`if (fallback)`). -/
def uncatFallback (labels : List (String × String)) : Option String :=
  match jsLookup labels "uncategorized" with
  | some f => if f == "" then none else some f
  | none => none

/-- Commit `c` references PR number `n` in the sense of the extraction
pass: `c.githubPr` is present with the truthy number `n`. -/
def refsNumTruthy (c : CommitRec) (n : Nat) : Bool :=
  match c.githubPr with
  | some p => p.number == n && p.number != 0
  | none => false

/-- The PR object of the first commit (in commit-list order) that
references `n`. -/
def firstRef (commits : List CommitRec) (n : Nat) : Option PullReq :=
  (commits.find? (fun c => refsNumTruthy c n)).bind (fun c => c.githubPr)

/-- The referenced PR numbers, in commit-list order (one entry per commit
with a truthy-numbered `githubPr`). -/
def refNums (commits : List CommitRec) : List Nat :=
  commits.filterMap fun c =>
    match c.githubPr with
    | some p => if p.number != 0 then some p.number else none
    | none => none

/-- First-occurrence deduplication, starting from an already-seen set. -/
def dedupFirst (seen : List Nat) : List Nat → List Nat
  | [] => []
  | n :: rest =>
    if seen.contains n then dedupFirst seen rest
    else n :: dedupFirst (seen ++ [n]) rest

/-- The author the claim keeps for a PR: present, with a truthy login that
neither equals nor contains any ignore entry. -/
def keptAuthor (ign : List String) (pr : PullReq) : Option Author :=
  match pr.author with
  | some a =>
    if a.login != "" && !(ignoreCommitter ign a.login) then some a else none
  | none => none

/-- First-seen deduplication of authors keyed by login. -/
def dedupByLogin (seen : List String) : List Author → List Author
  | [] => []
  | a :: rest =>
    if seen.contains a.login then dedupByLogin seen rest
    else a :: dedupByLogin (seen ++ [a.login]) rest

/-- The contributor list as the claim words it: walk the PR list, skip
missing authors and ignore-matched logins, keep the first author per
login. -/
def contributorsSpec (ign : List String) (prs : List PullReq) : List Author :=
  dedupByLogin [] (prs.filterMap (keptAuthor ign))

/-! ## Concrete sample data (used by witnesses and counterexamples) -/

/-- A merged PR on `main` with number 42. -/
def samplePr (n : Nat) (login : String) : PullReq :=
  { number := n, title := "title", url := "url", merged := true,
    baseRefName := "main", headRefName := "feature", author :=
      some { login := login, url := "u", avatarUrl := "a" } }

/-- Environment for the duplicate-lookup run: the commit-to-PR lookup
finds nothing, linked-issue lookups return one typed issue. -/
def envRace : GhEnv :=
  { prForCommit := fun _ => none,
    linkedIssues := fun _ => [{ number := 7, title := "i", issueTypeName := some "Bug" }],
    issueData := fun s => { number := 42, title := s } }

/-- Two commits whose messages both carry the inline reference `#42`. -/
def raceCommits : List CommitRec :=
  [{ commitSHA := "sha0", message := "fix things (#42)", issueNumber := some "42", date := "d0" },
   { commitSHA := "sha1", message := "follow-up for #42", issueNumber := some "42", date := "d1" }]

/-- A schedule of the 5-wide pool on `raceCommits` in which both mappers
pass the cache-miss check before either installs the entry, then run to
completion: both start (each suspending at the line 166 lookup), both
resume (each installing a cache entry), both entry promises resolve, and
both mappers then finish through the issue fetch. -/
def raceSched : List SchedEv :=
  [.task 0, .task 1, .task 0, .task 1, .entry 0, .entry 1,
   .task 0, .task 1, .task 0, .task 1]

/-- An unmerged candidate PR, to be rejected by the acceptance test. -/
def rejectedPr : PullReq :=
  { number := 9, title := "t", url := "u", merged := false,
    baseRefName := "main", headRefName := "h", author := none }

/-- Environment whose commit-to-PR lookup returns only `rejectedPr`. -/
def envReject : GhEnv :=
  { prForCommit := fun _ => some rejectedPr,
    linkedIssues := fun _ => [],
    issueData := fun s => { number := 0, title := s } }

/-- A commit with no inline issue number. -/
def plainCommit : CommitRec :=
  { commitSHA := "abc", message := "plain commit", issueNumber := none, date := "d" }

/-- A linked issue with type `Bug`. -/
def issueW : LinkedIssue := { number := 9, title := "iss", issueTypeName := some "Bug" }

/-- Environment whose commit-to-PR lookup finds the merged PR 42. -/
def envAccept : GhEnv :=
  { prForCommit := fun _ => some (samplePr 42 "alice"),
    linkedIssues := fun _ => [issueW],
    issueData := fun s => { number := 1, title := s } }

/-- The resolved cache-entry result of the `envAccept` run. -/
def resW : EntryRes := { pr := some (samplePr 42 "alice"), linkedIssues := [issueW] }

/-- The resolved cache entry of the `envAccept` run. -/
def entryW : CacheEntry :=
  { prNumber := 42, prAtCreation := some (samplePr 42 "alice"), result := some resW }

/-- A tag-date table for one tag `v1`. -/
def tdW : List (String × String) := [("v1", "2024-05-01")]

/-- A categorized PR that survives grouping. -/
def prKept : PullReq := { samplePr 1 "alice" with categories := some ["Bug Fix"] }

/-- A PR with a defined empty category array, skipped by grouping. -/
def prSkipped : PullReq := { samplePr 2 "bob" with categories := some [] }

/-- Sample categorized PR list. -/
def prsW : List PullReq := [prKept, prSkipped]

/-- The release produced from `prsW` under the tag `v1`. -/
def rW : Release :=
  { name := "v1", date := some "2024-05-01", pullRequests := [prKept] }

/-- The release produced from `prsW` under the working head. -/
def rHW : Release :=
  { name := UNRELEASED_TAG, date := none, pullRequests := [prKept] }

/-- A label configuration with an `"uncategorized"` mapping. -/
def labelsW : List (String × String) :=
  [("bug", "Bug Fix"), ("uncategorized", "Other")]

/-- PR 7, referenced by three of the `extractCommits`. -/
def prSeven : PullReq := samplePr 7 "alice"

/-- PR 8, referenced by one commit. -/
def prEight : PullReq := samplePr 8 "bob"

/-- An enriched commit list in which PR 7 is referenced by three distinct
commits. -/
def extractCommits : List CommitRec :=
  [{ plainCommit with commitSHA := "c0", githubPr := some prEight },
   { plainCommit with commitSHA := "c1", githubPr := some prSeven },
   { plainCommit with commitSHA := "c2" },
   { plainCommit with commitSHA := "c3", githubPr := some prSeven },
   { plainCommit with commitSHA := "c4", githubPr := some prSeven }]

/-! # Theorems -/

/-! ## C1: the single-flight-per-key guarantee fails on the code

On the inline-issue-number path the mapper suspends at the line 166
`getPRForCommit` await *between* the `prCache.has` check (line 164) and
the `prCache.set` (line 171).  Two commits carrying the same inline
reference can therefore both observe a cache miss before either installs
the shared entry; the slower one then overwrites the in-flight entry and
issues a second `getLinkedIssues` for the same PR number.  The schedule
below is realised by `pMap` whenever the two commit-to-PR responses arrive
after both mappers have started. -/

/-- C1: on `raceCommits` — two commits both referencing PR 42 inline,
running under the 5-wide pool with the schedule `raceSched` — the remote
linked-issues lookup for 42 is issued twice, refuting "the linked-issues
lookup for N is issued exactly once"; the run completes (both mappers
reach `done`). -/
theorem c1_linked_lookup_not_single_flight :
    ((runDl ["main"] envRace raceCommits raceSched).calls.countP
        (fun c => c == RemoteCall.linkedLookup 42)) = 2
  ∧ (raceCommits.all (fun c => c.issueNumber == some "42")) = true
  ∧ ((runDl ["main"] envRace raceCommits raceSched).tasks.all
        (fun t => t.phase == TaskPhase.done)) = true := by
  decide

/-! ## C8: the tag-split condition is on string length, not ref count -/

/-- C8 counterexample: the decoration `"tag: v1.0.0"` names exactly one
ref, so per the claim `tags` should stay undefined/empty; the code splits
whenever the *string* is longer than one character and yields
`some ["v1.0.0"]`. -/
theorem c8_single_ref_counterexample :
    (jsSplit ", ".data "tag: v1.0.0".data).length = 1
  ∧ parseRefTags "tag: v1.0.0" = some ["v1.0.0"]
  ∧ tagsSpecClaim "tag: v1.0.0" = none
  ∧ (toCommitInfos (fun _ => none)
      [{ sha := "a1", refName := "tag: v1.0.0", summary := "m", date := "d" }]).map
        (fun c => c.tags) = [some ["v1.0.0"]] := by
  decide

/-- Filtering then mapping is a `filterMap`. -/
theorem filter_map_eq_filterMap (p : α → Bool) (f : α → β) (l : List α) :
    (l.filter p).map f
      = l.filterMap (fun x => if p x then some (f x) else none) := by
  induction l with
  | nil => rfl
  | cons a l ih =>
    by_cases h : p a <;> simp [List.filter_cons, List.filterMap_cons, h, ih]

/-- The `tags` field per commit equals the amended rule. -/
theorem parseRefTags_eq_amended (refName : String) :
    parseRefTags refName = tagsSpecAmended refName := by
  unfold parseRefTags tagsSpecAmended
  rcases Nat.lt_or_ge 1 refName.length with h | h
  · rw [if_pos h, if_neg (by omega)]
    rw [filter_map_eq_filterMap]
  · rw [if_neg (by omega), if_pos (by omega)]

/-- C8 (amended): for every raw commit record the parser sets `tags` by
splitting the ref-decoration string on `", "` whenever that string is
longer than one character — keeping the `"tag: "`-prefixed entries with
the prefix stripped — and leaves `tags` undefined only when the string has
length at most one. -/
theorem c8_tags_amended (findPrId : String → Option String)
    (commits : List CommitListItem) :
    (toCommitInfos findPrId commits).map (fun c => c.tags)
      = commits.map (fun c => tagsSpecAmended c.refName) := by
  unfold toCommitInfos
  rw [List.map_map]
  exact List.map_congr_left fun c _ => parseRefTags_eq_amended c.refName

/-! ## C9: category assignment is idempotent -/

/-- C9: re-running `assignToCategories` on its own output reproduces the
same categories for every PR (in particular no duplicates are introduced):
the computed categories depend only on `pr.number`, which the assignment
preserves. -/
theorem c9_assign_idempotent (labels : List (String × String))
    (prs : List PullReq) (commits : List CommitRec) :
    assignToCategories labels (assignToCategories labels prs commits) commits
      = assignToCategories labels prs commits := by
  unfold assignToCategories
  rw [List.map_map]
  exact List.map_congr_left fun pr _ => rfl

/-! ## Release grouping: characterization, C10 and C7 -/

/-- The grouping fold on a map already holding the key only appends the
surviving PRs to that release. -/
theorem groupStep_foldl_cons (key : String) (d : Option String)
    (prs : List PullReq) (r : Release) :
    prs.foldl (groupStep key d) [(key, r)]
      = [(key, { r with pullRequests :=
            r.pullRequests ++ prs.filter (fun pr => !skippedByGrouping pr) })] := by
  induction prs generalizing r with
  | nil => simp
  | cons pr prs ih =>
    simp only [List.foldl_cons, List.filter_cons]
    by_cases h : skippedByGrouping pr
    · simp [groupStep, h, ih]
    · simp [groupStep, h, ih, List.append_assoc]

/-- The grouping fold from the empty map: empty when every PR is skipped,
otherwise a single release holding the surviving PRs in order. -/
theorem groupStep_foldl_nil (key : String) (d : Option String)
    (prs : List PullReq) :
    prs.foldl (groupStep key d) []
      = if prs.filter (fun pr => !skippedByGrouping pr) = [] then []
        else [(key, { name := key, date := d,
                      pullRequests := prs.filter (fun pr => !skippedByGrouping pr) })] := by
  induction prs with
  | nil => simp
  | cons pr prs ih =>
    simp only [List.foldl_cons, List.filter_cons]
    by_cases h : skippedByGrouping pr
    · simp [groupStep, h, ih]
    · simp only [groupStep, h, Bool.not_false, if_true, if_false,
        Bool.false_eq_true, List.find?_nil, Option.isNone_none,
        List.nil_append, List.map_cons, List.map_nil, beq_self_eq_true,
        cond_true, if_pos]
      rw [groupStep_foldl_cons, if_neg (List.cons_ne_nil _ _)]
      simp

/-- Characterization of `groupByRelease`: at most one release, keyed by
`toRef`/the unreleased sentinel, dated by `getTagDate toRef`, holding
exactly the PRs whose `categories` is not a defined empty array. -/
theorem groupByRelease_eq (td : List (String × String)) (prs : List PullReq)
    (toRef : String) :
    groupByRelease td prs toRef
      = if prs.filter (fun pr => !skippedByGrouping pr) = [] then []
        else [{ name := if toRef == "HEAD" then UNRELEASED_TAG else toRef,
                date := getTagDate td toRef,
                pullRequests := prs.filter (fun pr => !skippedByGrouping pr) }] := by
  unfold groupByRelease
  rw [groupStep_foldl_nil]
  split <;> simp

/-- C10: release grouping emits at most one release; every emitted release
has a non-empty PR list; and an emitted release holds exactly the input
PRs whose `categories` field is not a defined empty array (in particular a
PR with `categories` undefined is included). -/
theorem c10_group_release_invariants (td : List (String × String))
    (prs : List PullReq) (toRef : String) :
    (groupByRelease td prs toRef).length ≤ 1
  ∧ (∀ r ∈ groupByRelease td prs toRef, r.pullRequests ≠ [])
  ∧ (∀ r ∈ groupByRelease td prs toRef,
      r.pullRequests = prs.filter (fun pr => !(pr.categories == some []))) := by
  rw [groupByRelease_eq]
  split
  · simp
  · next hne =>
    refine ⟨by simp, ?_, ?_⟩
    · intro r hr
      rw [List.mem_singleton] at hr
      subst hr
      simpa [skippedByGrouping] using hne
    · intro r hr
      rw [List.mem_singleton] at hr
      subst hr
      simp [skippedByGrouping]

/-- C10 witness: on `prsW` under tag `v1`, the single emitted release is
`rW`, whose PR list is non-empty. -/
theorem c10_witness : rW ∈ groupByRelease tdW prsW "v1" ∧ rW.pullRequests ≠ [] :=
  ⟨by decide, (c10_group_release_invariants tdW prsW "v1").2.1 rW (by decide)⟩

/-- C7: with `getTagDate` modelled from the spec as a tag-table lookup (a
table that never lists the working head `"HEAD"` as a tag), every emitted
release is keyed by the unreleased sentinel with no date when
`to = "HEAD"`, and keyed by `to` itself with the tag's date when `to` is a
concrete tag. -/
theorem c7_release_key_and_date (td : List (String × String))
    (prs : List PullReq) (toRef : String) (h : ∀ p ∈ td, p.1 ≠ "HEAD") :
    (toRef = "HEAD" →
      ∀ r ∈ groupByRelease td prs toRef,
        r.name = UNRELEASED_TAG ∧ r.date = none)
  ∧ (toRef ≠ "HEAD" →
      ∀ r ∈ groupByRelease td prs toRef,
        r.name = toRef ∧ r.date = getTagDate td toRef) := by
  constructor
  · intro hto r hr
    subst hto
    rw [groupByRelease_eq] at hr
    split at hr
    · simp at hr
    · rw [List.mem_singleton] at hr
      subst hr
      refine ⟨by simp, ?_⟩
      show getTagDate td "HEAD" = none
      unfold getTagDate
      rw [List.find?_eq_none.mpr]
      · rfl
      · intro p hp
        simpa using h p hp
  · intro hto r hr
    rw [groupByRelease_eq] at hr
    split at hr
    · simp at hr
    · rw [List.mem_singleton] at hr
      subst hr
      exact ⟨by simp [hto], rfl⟩

/-- C7 witness: on `prsW` with target ref `HEAD` and tag table `tdW`, the
emitted release is the unreleased sentinel with no date. -/
theorem c7_witness :
    rHW ∈ groupByRelease tdW prsW "HEAD"
  ∧ rHW.name = UNRELEASED_TAG ∧ rHW.date = none :=
  ⟨by decide,
   (c7_release_key_and_date tdW prsW "HEAD" (by decide)).1 rfl rHW (by decide)⟩

/-! ## C4: the `"uncategorized"` fallback -/

/-- Folding issues that all map to no category adds nothing to the set. -/
theorem foldl_addToSet_of_none (labels : List (String × String))
    (l : List LinkedIssue) (acc : List String)
    (h : ∀ issue ∈ l, categoryOf labels issue = none) :
    l.foldl
      (fun s issue =>
        match categoryOf labels issue with
        | some cat => addToSet s cat
        | none => s) acc = acc := by
  induction l generalizing acc with
  | nil => rfl
  | cons issue l ih =>
    rw [List.foldl_cons, h issue (by simp)]
    exact ih acc fun i hi => h i (by simp [hi])

/-- C4: for a PR none of whose gathered linked issues maps to a configured
label, the assigned category set is exactly the singleton of the
configured `"uncategorized"` mapping when one exists, and is the empty set
otherwise — in which case the (assigned) PR is absent from every release
emitted by the grouping over the assigned list. -/
theorem c4_uncategorized_fallback (labels : List (String × String))
    (commits : List CommitRec) (pr : PullReq)
    (h : ∀ issue ∈ gatherLinkedIssues commits pr.number,
      categoryOf labels issue = none) :
    (∀ f, uncatFallback labels = some f →
      (assignOne labels commits pr).categories = some [f])
  ∧ (uncatFallback labels = none →
      (assignOne labels commits pr).categories = some []
    ∧ ∀ (prs : List PullReq) (td : List (String × String)) (toRef : String)
        (r : Release),
        pr ∈ prs →
        r ∈ groupByRelease td (assignToCategories labels prs commits) toRef →
        assignOne labels commits pr ∉ r.pullRequests) := by
  have hbase : computeCats labels commits pr.number
      = match jsLookup labels "uncategorized" with
        | some fallback => if fallback == "" then [] else addToSet [] fallback
        | none => [] := by
    unfold computeCats
    rw [foldl_addToSet_of_none labels _ [] h]
    rfl
  constructor
  · intro f hf
    show some (computeCats labels commits pr.number) = some [f]
    rw [hbase]
    rcases hlk : jsLookup labels "uncategorized" with _ | g
    · simp [uncatFallback, hlk] at hf
    · simp only [uncatFallback, hlk] at hf
      by_cases hg : g == ""
      · simp [hg] at hf
      · simp only [hg, Bool.false_eq_true, if_false, Option.some_inj] at hf
        subst hf
        simp [hg, addToSet]
  · intro hf
    have hcats : (assignOne labels commits pr).categories = some [] := by
      show some (computeCats labels commits pr.number) = some []
      rw [hbase]
      rcases hlk : jsLookup labels "uncategorized" with _ | g
      · simp
      · simp only [uncatFallback, hlk] at hf
        by_cases hg : g == ""
        · simp [hg]
        · simp [hg] at hf
    refine ⟨hcats, ?_⟩
    intro prs td toRef r _ hr hmem
    have hchar := (c10_group_release_invariants td
      (assignToCategories labels prs commits) toRef).2.2 r hr
    rw [hchar] at hmem
    have := (List.mem_filter.mp hmem).2
    rw [hcats] at this
    simp at this

/-- C4 witness: with the label table `labelsW` (which maps
`"uncategorized"` to `"Other"`) and no gathered issues, the PR's category
set becomes exactly `["Other"]`. -/
theorem c4_witness :
    uncatFallback labelsW = some "Other"
  ∧ (assignOne labelsW [plainCommit] (samplePr 5 "alice")).categories
      = some ["Other"] :=
  ⟨by decide,
   (c4_uncategorized_fallback labelsW [plainCommit] (samplePr 5 "alice")
      (by decide)).1 "Other" (by decide)⟩

/-! ## C5: extraction deduplicates, keeping first-seen order -/

/-- Unfolding equation for `refNums` on a cons. -/
theorem refNums_cons (c : CommitRec) (rest : List CommitRec) :
    refNums (c :: rest)
      = match c.githubPr with
        | some p =>
          if p.number != 0 then p.number :: refNums rest else refNums rest
        | none => refNums rest := by
  simp only [refNums, List.filterMap_cons]
  rcases c.githubPr with _ | p
  · rfl
  · by_cases h0 : (p.number != 0) = true
    · simp [h0]
    · rw [Bool.not_eq_true] at h0
      simp [h0]

/-- Unfolding equation for `dedupFirst` on a cons. -/
theorem dedupFirst_cons (seen : List Nat) (n : Nat) (l : List Nat) :
    dedupFirst seen (n :: l)
      = if seen.contains n then dedupFirst seen l
        else n :: dedupFirst (seen ++ [n]) l := rfl

/-- The numbers of the extracted PRs are the first-occurrence
deduplication of the referenced numbers. -/
theorem extractGo_map_number (commits : List CommitRec) :
    ∀ (prs : List PullReq) (seen : List Nat),
    (extractGo commits prs seen).map (fun p => p.number)
      = prs.map (fun p => p.number) ++ dedupFirst seen (refNums commits) := by
  induction commits with
  | nil => intro prs seen; simp [extractGo, refNums, dedupFirst]
  | cons c rest ih =>
    intro prs seen
    rcases hc : c.githubPr with _ | p
    · simp only [extractGo, hc, refNums_cons]
      exact ih prs seen
    · by_cases h0 : (p.number != 0) = true
      · simp only [extractGo, hc, refNums_cons, h0, if_true, Bool.true_and]
        by_cases hs : seen.contains p.number = true
        · simp only [hs, Bool.not_true, Bool.false_eq_true, if_false,
            dedupFirst_cons, if_true]
          exact ih prs seen
        · rw [Bool.not_eq_true] at hs
          simp only [hs, Bool.not_false, if_true, dedupFirst_cons,
            Bool.false_eq_true, if_false]
          rw [ih]
          simp [List.append_assoc]
      · rw [Bool.not_eq_true] at h0
        simp only [extractGo, hc, refNums_cons, h0, Bool.false_and,
          Bool.false_eq_true, if_false]
        exact ih prs seen

/-- Count of one number in a first-occurrence deduplication. -/
theorem dedupFirst_count (n : Nat) :
    ∀ (l : List Nat) (seen : List Nat),
    (dedupFirst seen l).count n = if n ∈ l ∧ n ∉ seen then 1 else 0 := by
  intro l
  induction l with
  | nil => intro seen; simp [dedupFirst]
  | cons m rest ih =>
    intro seen
    rw [dedupFirst_cons]
    by_cases hm : m ∈ seen
    · rw [if_pos (by simpa using hm), ih]
      by_cases hnm : n = m
      · subst hnm
        simp [hm]
      · simp [hnm]
    · rw [if_neg (by simpa using hm), List.count_cons, ih]
      by_cases hnm : n = m
      · subst hnm
        simp [hm, List.mem_append]
      · have hmn : ¬m = n := fun h => hnm h.symm
        simp [hnm, hmn, List.mem_append]

/-- Boolean equality on numbers is symmetric. -/
theorem nat_beq_comm (a b : Nat) : (a == b) = (b == a) := by
  by_cases h : a = b
  · subst h; rfl
  · have h' : ¬b = a := fun hx => h hx.symm
    simp [h, h']

/-- A referenced number is exactly one the extraction's any-test finds. -/
theorem refNums_contains (commits : List CommitRec) (n : Nat) :
    (refNums commits).contains n
      = commits.any (fun c => refsNumTruthy c n) := by
  induction commits with
  | nil => rfl
  | cons c rest ih =>
    rcases hc : c.githubPr with _ | p
    · simp only [refNums_cons, hc, List.any_cons, refsNumTruthy, ih,
        Bool.false_or]
    · by_cases h0 : (p.number != 0) = true
      · simp only [refNums_cons, hc, h0, if_true, List.contains_cons,
          List.any_cons, refsNumTruthy, Bool.and_true, ih, nat_beq_comm]
      · rw [Bool.not_eq_true] at h0
        simp only [refNums_cons, hc, h0, Bool.false_eq_true, if_false,
          List.any_cons, refsNumTruthy, Bool.and_false, ih, Bool.false_or]

/-- Once `n` is in the seen-set, the walk never pushes another PR numbered
`n`, so the first `n`-numbered PR of the accumulator is final. -/
theorem extractGo_find_of_seen (commits : List CommitRec) (n : Nat) :
    ∀ (prs : List PullReq) (seen : List Nat), n ∈ seen →
    (extractGo commits prs seen).find? (fun p => p.number == n)
      = prs.find? (fun p => p.number == n) := by
  induction commits with
  | nil => intro prs seen _; rfl
  | cons c rest ih =>
    intro prs seen hn
    rcases hc : c.githubPr with _ | p
    · simp only [extractGo, hc]
      exact ih prs seen hn
    · simp only [extractGo, hc]
      by_cases hcond : (p.number != 0 && !seen.contains p.number) = true
      · rw [if_pos hcond]
        have hps : p.number ∉ seen := by
          have h2 := hcond
          simp only [Bool.and_eq_true] at h2
          simpa using h2.2
        have hne : (p.number == n) = false := by
          simpa using fun hx : p.number = n => hps (hx ▸ hn)
        rw [ih (prs ++ [p]) (seen ++ [p.number])
          (List.mem_append.mpr (Or.inl hn))]
        rw [List.find?_append]
        simp [List.find?_cons, hne]
      · rw [if_neg hcond]
        exact ih prs seen hn

/-- The extraction walk finds, for each referenced number, the PR object
of the first commit referencing it. -/
theorem extractGo_find (commits : List CommitRec) (n : Nat) :
    ∀ (prs : List PullReq) (seen : List Nat),
    n ∉ seen →
    (∀ q ∈ prs, q.number ≠ n) →
    (extractGo commits prs seen).find? (fun p => p.number == n)
      = firstRef commits n := by
  induction commits with
  | nil =>
    intro prs seen _ hq
    show prs.find? (fun p => p.number == n) = _
    rw [List.find?_eq_none.mpr (fun q hmem => by simpa using hq q hmem)]
    rfl
  | cons c rest ih =>
    intro prs seen hn hq
    rcases hc : c.githubPr with _ | p
    · have href : refsNumTruthy c n = false := by simp [refsNumTruthy, hc]
      simp only [extractGo, hc, firstRef, List.find?_cons, href]
      exact ih prs seen hn hq
    · by_cases hpn : p.number = n
      · by_cases h0 : (p.number != 0) = true
        · have hcond : (p.number != 0 && !seen.contains p.number) = true := by
            simp only [h0, Bool.true_and, Bool.not_eq_true']
            simpa using fun hx : p.number ∈ seen => hn (hpn ▸ hx)
          have href : refsNumTruthy c n = true := by
            have h0' : (n != 0) = true := hpn ▸ h0
            simp [refsNumTruthy, hc, hpn, h0']
          simp only [extractGo, hc, hcond, if_true, firstRef,
            List.find?_cons, href, Option.some_bind]
          rw [extractGo_find_of_seen rest n (prs ++ [p]) (seen ++ [p.number])
            (List.mem_append.mpr (Or.inr (by simp [hpn])))]
          rw [List.find?_append]
          rw [List.find?_eq_none.mpr (fun q hmem => by simpa using hq q hmem)]
          simp [List.find?_cons, hpn, hc]
        · have hcond : (p.number != 0 && !seen.contains p.number) = false := by
            rw [Bool.not_eq_true] at h0
            simp [h0]
          have href : refsNumTruthy c n = false := by
            rw [Bool.not_eq_true] at h0
            simp [refsNumTruthy, hc, h0]
          simp only [extractGo, hc, hcond, Bool.false_eq_true, if_false,
            firstRef, List.find?_cons, href]
          exact ih prs seen hn hq
      · have href : refsNumTruthy c n = false := by
          simp [refsNumTruthy, hc, hpn]
        simp only [extractGo, hc, firstRef, List.find?_cons, href]
        by_cases hcond : (p.number != 0 && !seen.contains p.number) = true
        · rw [if_pos hcond]
          refine ih (prs ++ [p]) (seen ++ [p.number]) ?_ ?_
          · intro hmem
            rcases List.mem_append.mp hmem with hmem | hmem
            · exact hn hmem
            · exact hpn (List.mem_singleton.mp hmem).symm
          · intro q hqmem
            rcases List.mem_append.mp hqmem with hmem | hmem
            · exact hq q hmem
            · rw [List.mem_singleton.mp hmem]
              exact hpn
        · rw [if_neg hcond]
          exact ih prs seen hn hq

/-- C5: a PR number referenced by at least one enriched commit yields
exactly one entry in the extracted list; that entry is the `githubPr` of
the first referencing commit; and the extracted numbers are, in order, the
first-occurrence deduplication of the referenced numbers — extraction
being a pure single pass over the commit list. -/
theorem c5_extract_first_seen (commits : List CommitRec) (n : Nat)
    (h : commits.any (fun c => refsNumTruthy c n) = true) :
    ((extractPullRequestInfo commits).countP (fun p => p.number == n) = 1)
  ∧ ((extractPullRequestInfo commits).find? (fun p => p.number == n)
      = firstRef commits n)
  ∧ ((extractPullRequestInfo commits).map (fun p => p.number)
      = dedupFirst [] (refNums commits)) := by
  have hmap := extractGo_map_number commits [] []
  have hmem : n ∈ refNums commits := by
    have hcont := refNums_contains commits n
    rw [h] at hcont
    simpa using hcont
  refine ⟨?_, ?_, ?_⟩
  · have hcount : ((extractPullRequestInfo commits).map
        (fun p => p.number)).count n = 1 := by
      rw [extractPullRequestInfo, hmap]
      simp only [List.map_nil, List.nil_append]
      rw [dedupFirst_count]
      rw [if_pos ⟨hmem, by simp⟩]
    rw [List.count_eq_countP, List.countP_map] at hcount
    exact hcount
  · exact extractGo_find commits n [] []
      (by simp) (by intro q hq; simp at hq)
  · rw [extractPullRequestInfo, hmap]
    rfl

/-- C5 witness: in `extractCommits` PR 7 is referenced by three distinct
commits; it appears exactly once in the extracted list, at the position of
its first-seen commit. -/
theorem c5_witness :
    (extractCommits.any (fun c => refsNumTruthy c 7) = true)
  ∧ ((extractPullRequestInfo extractCommits).countP (fun p => p.number == 7) = 1
  ∧ ((extractPullRequestInfo extractCommits).find? (fun p => p.number == 7)
      = firstRef extractCommits 7)
  ∧ ((extractPullRequestInfo extractCommits).map (fun p => p.number)
      = dedupFirst [] (refNums extractCommits))) :=
  ⟨by decide, c5_extract_first_seen extractCommits 7 (by decide)⟩

/-! ## C6: per-release contributor collection -/

/-- Boolean equality on strings is symmetric. -/
theorem str_beq_comm (a b : String) : (a == b) = (b == a) := by
  by_cases h : a = b
  · subst h; rfl
  · have h' : ¬b = a := fun hx => h hx.symm
    simp [h, h']

/-- The key-lookup miss test of `committerStep` is the complement of key
membership. -/
theorem findKey_isNone (m : List (String × Author)) (lg : String) :
    (m.find? (fun p => p.1 == lg)).isNone = !((m.map (·.1)).contains lg) := by
  induction m with
  | nil => rfl
  | cons p m ih =>
    simp only [List.find?_cons, List.map_cons, List.contains_cons]
    by_cases h : (p.1 == lg) = true
    · simp [h, str_beq_comm lg p.1]
    · rw [Bool.not_eq_true] at h
      have h' : (lg == p.1) = false := str_beq_comm lg p.1 ▸ h
      simp [h, h', ih]

/-- Unfolding equation for `dedupByLogin` on a cons. -/
theorem dedupByLogin_cons (seen : List String) (a : Author) (l : List Author) :
    dedupByLogin seen (a :: l)
      = if seen.contains a.login then dedupByLogin seen l
        else a :: dedupByLogin (seen ++ [a.login]) l := rfl

/-- The contributor fold refines filter-then-first-seen-dedup. -/
theorem committers_fold (ign : List String) (prs : List PullReq) :
    ∀ m : List (String × Author),
    (prs.foldl (committerStep ign) m).map (·.2)
      = m.map (·.2)
        ++ dedupByLogin (m.map (·.1)) (prs.filterMap (keptAuthor ign)) := by
  induction prs with
  | nil => intro m; simp [dedupByLogin]
  | cons pr prs ih =>
    intro m
    rw [List.foldl_cons, List.filterMap_cons]
    rcases ha : pr.author with _ | a
    · rw [show committerStep ign m pr = m from by simp [committerStep, ha]]
      rw [show keptAuthor ign pr = none from by simp [keptAuthor, ha]]
      exact ih m
    · by_cases hk : (a.login != "" && !(ignoreCommitter ign a.login)) = true
      · rw [show keptAuthor ign pr = some a from by
          simp [keptAuthor, ha, hk]]
        by_cases hseen : ((m.map (·.1)).contains a.login) = true
        · rw [show committerStep ign m pr = m from by
            unfold committerStep
            simp only [ha]
            rw [findKey_isNone, hseen]
            simp]
          rw [ih, dedupByLogin_cons, if_pos hseen]
        · rw [Bool.not_eq_true] at hseen
          rw [show committerStep ign m pr = m ++ [(a.login, a)] from by
            unfold committerStep
            simp only [ha]
            rw [findKey_isNone, hseen]
            simp [hk]]
          rw [ih (m ++ [(a.login, a)]), dedupByLogin_cons,
            if_neg (by rw [hseen]; simp)]
          simp [List.map_append]
      · rw [Bool.not_eq_true] at hk
        rw [show committerStep ign m pr = m from by
          simp [committerStep, ha, hk]]
        rw [show keptAuthor ign pr = none from by
          simp [keptAuthor, ha, hk]]
        exact ih m

/-- Each login occurs at most once in a first-seen dedup, and not at all
once it is in the seen-set. -/
theorem dedupByLogin_countP (lg : String) :
    ∀ (as : List Author) (seen : List String),
    ((dedupByLogin seen as).countP (fun a => a.login == lg) ≤ 1)
  ∧ (seen.contains lg = true →
      (dedupByLogin seen as).countP (fun a => a.login == lg) = 0) := by
  intro as
  induction as with
  | nil => intro seen; simp [dedupByLogin]
  | cons a rest ih =>
    intro seen
    rw [dedupByLogin_cons]
    by_cases hc : seen.contains a.login = true
    · rw [if_pos hc]
      exact ih seen
    · rw [Bool.not_eq_true] at hc
      rw [if_neg (by rw [hc]; simp)]
      rw [List.countP_cons]
      constructor
      · by_cases hal : (a.login == lg) = true
        · have hlg : (seen ++ [a.login]).contains lg = true := by
            have : a.login = lg := by simpa using hal
            simp [this]
          rw [(ih (seen ++ [a.login])).2 hlg]
          simp [hal]
        · rw [Bool.not_eq_true] at hal
          have := (ih (seen ++ [a.login])).1
          simp [hal]
          omega
      · intro hs
        have hal : (a.login == lg) = false := by
          have : ¬a.login = lg := by
            intro hx
            rw [hx] at hc
            rw [hc] at hs
            simp at hs
          simpa using this
        have hlg : (seen ++ [a.login]).contains lg = true := by
          have hmem : lg ∈ seen := by simpa using hs
          simp [hmem]
        rw [(ih (seen ++ [a.login])).2 hlg]
        simp [hal]

/-- C6: the contributor list of a release's PR list equals the claim's
description — walk the PRs in order, skip a PR when its author is missing
(or has no truthy login) or when the login equals or contains an ignore
entry, and keep the first author per login — so each login appears at most
once in the output. -/
theorem c6_contributors (ign : List String) (prs : List PullReq) :
    getCommitters ign prs = contributorsSpec ign prs
  ∧ ∀ lg : String,
      (getCommitters ign prs).countP (fun a => a.login == lg) ≤ 1 := by
  have hmain := committers_fold ign prs []
  have heq : getCommitters ign prs = contributorsSpec ign prs := by
    simpa [getCommitters, contributorsSpec] using hmain
  refine ⟨heq, ?_⟩
  intro lg
  rw [heq]
  exact (dedupByLogin_countP lg (prs.filterMap (keptAuthor ign)) []).1

/-! ## Scheduler-structure lemmas -/

/-- Setting task `i` leaves every other task slot unchanged. -/
theorem setTask_tasks_other (s : DlState) (i : Nat) (t : TaskState)
    (j : Nat) (h : j ≠ i) : (setTask s i t).tasks[j]? = s.tasks[j]? := by
  unfold setTask
  exact List.getElem?_set_ne (fun hx => h hx.symm)

/-- Setting task `i` (which exists) makes slot `i` hold the new state. -/
theorem setTask_tasks_self (s : DlState) (i : Nat) (t₀ t : TaskState)
    (h : s.tasks[i]? = some t₀) : (setTask s i t).tasks[i]? = some t := by
  unfold setTask
  show (s.tasks.set i t)[i]? = some t
  rw [List.getElem?_set_self', h]
  rfl

/-- `installEntry` touches no other task slot. -/
theorem installEntry_tasks_other (i n : Nat) (fp : Option PullReq)
    (s : DlState) (t : TaskState) (j : Nat) (h : j ≠ i) :
    (installEntry i n fp s t).tasks[j]? = s.tasks[j]? := by
  unfold installEntry
  exact List.getElem?_set_ne (fun hx => h hx.symm)

/-- `suspendFirstLookup` touches no other task slot. -/
theorem suspendFirstLookup_tasks_other (c : CommitRec) (i : Nat)
    (s : DlState) (t : TaskState) (j : Nat) (h : j ≠ i) :
    (suspendFirstLookup c i s t).tasks[j]? = s.tasks[j]? := by
  unfold suspendFirstLookup
  exact List.getElem?_set_ne (fun hx => h hx.symm)

/-- `cacheStep` touches no other task slot. -/
theorem cacheStep_tasks_other (c : CommitRec) (i n : Nat)
    (fp : Option PullReq) (s : DlState) (t : TaskState) (j : Nat)
    (h : j ≠ i) : (cacheStep c i n fp s t).tasks[j]? = s.tasks[j]? := by
  unfold cacheStep
  split
  · exact setTask_tasks_other _ i _ j h
  · split
    · exact List.getElem?_set_ne (fun hx => h hx.symm)
    · exact installEntry_tasks_other i n fp s t j h

/-- `finishStep` touches no other task slot. -/
theorem finishStep_tasks_other (c : CommitRec) (i : Nat) (s : DlState)
    (t : TaskState) (j : Nat) (h : j ≠ i) :
    (finishStep c i s t).tasks[j]? = s.tasks[j]? := by
  unfold finishStep
  split
  · exact List.getElem?_set_ne (fun hx => h hx.symm)
  · exact setTask_tasks_other _ i _ j h

/-- `startStep` touches no other task slot. -/
theorem startStep_tasks_other (c : CommitRec) (i : Nat) (s : DlState)
    (t : TaskState) (j : Nat) (h : j ≠ i) :
    (startStep c i s t).tasks[j]? = s.tasks[j]? := by
  unfold startStep
  split
  · split
    · split
      · split
        · exact cacheStep_tasks_other c i _ none s t j h
        · exact suspendFirstLookup_tasks_other c i s t j h
      · exact suspendFirstLookup_tasks_other c i s t j h
    · exact suspendFirstLookup_tasks_other c i s t j h
  · exact suspendFirstLookup_tasks_other c i s t j h

/-- `firstLookupStep` touches no other task slot. -/
theorem firstLookupStep_tasks_other (cfg : List String) (env : GhEnv)
    (c : CommitRec) (i : Nat) (s : DlState) (t : TaskState) (j : Nat)
    (h : j ≠ i) : (firstLookupStep cfg env c i s t).tasks[j]? = s.tasks[j]? := by
  unfold firstLookupStep
  split
  · split
    · exact cacheStep_tasks_other c i _ _ s t j h
    · exact finishStep_tasks_other c i s t j h
  · exact finishStep_tasks_other c i s t j h

/-- `secondLookupStep` touches no other task slot. -/
theorem secondLookupStep_tasks_other (cfg : List String) (env : GhEnv)
    (c : CommitRec) (i n : Nat) (s : DlState) (t : TaskState) (j : Nat)
    (h : j ≠ i) :
    (secondLookupStep cfg env c i n s t).tasks[j]? = s.tasks[j]? := by
  unfold secondLookupStep
  exact installEntry_tasks_other i n _ s t j h

/-- `entryResumeStep` touches no other task slot. -/
theorem entryResumeStep_tasks_other (c : CommitRec) (i k : Nat)
    (fp : Option PullReq) (s : DlState) (t : TaskState) (j : Nat)
    (h : j ≠ i) :
    (entryResumeStep c i k fp s t).tasks[j]? = s.tasks[j]? := by
  unfold entryResumeStep
  split
  · split
    · split
      · exact finishStep_tasks_other c i _ _ j h
      · exact finishStep_tasks_other c i _ _ j h
    · rfl
  · rfl

/-- `issueResumeStep` touches no other task slot. -/
theorem issueResumeStep_tasks_other (env : GhEnv) (c : CommitRec) (i : Nat)
    (s : DlState) (t : TaskState) (j : Nat) (h : j ≠ i) :
    (issueResumeStep env c i s t).tasks[j]? = s.tasks[j]? := by
  unfold issueResumeStep
  exact setTask_tasks_other _ i _ j h

/-- Stepping task `i` leaves every other task slot unchanged. -/
theorem taskStep_tasks_other (cfg : List String) (env : GhEnv)
    (commits : List CommitRec) (s : DlState) (i j : Nat) (h : j ≠ i) :
    (taskStep cfg env commits s i).tasks[j]? = s.tasks[j]? := by
  unfold taskStep
  split
  · split
    · split
      · exact startStep_tasks_other _ i s _ j h
      · rfl
    · exact firstLookupStep_tasks_other cfg env _ i s _ j h
    · exact secondLookupStep_tasks_other cfg env _ i _ s _ j h
    · exact entryResumeStep_tasks_other _ i _ _ s _ j h
    · exact issueResumeStep_tasks_other env _ i s _ j h
    · rfl
  · rfl

/-- Resolving a cache entry's promise never changes the task list. -/
theorem entryResolveStep_tasks (env : GhEnv) (s : DlState) (k : Nat) :
    (entryResolveStep env s k).tasks = s.tasks := by
  unfold entryResolveStep
  split
  · split
    · rfl
    · rfl
  · rfl

/-! ## C3: rejected PR candidates leave the commit unenriched -/

/-- One step of the mapper of a commit with no inline issue number and a
rejected (or absent) commit-to-PR candidate preserves `UntouchedTask`. -/
theorem untouched_taskStep_self (cfg : List String) (env : GhEnv)
    (commits : List CommitRec) (i : Nat) (c : CommitRec)
    (hc : commits[i]? = some c) (hno : c.issueNumber = none)
    (hrej : acceptPR cfg (env.prForCommit c.commitSHA) = false)
    (s : DlState) (t : TaskState) (ht : s.tasks[i]? = some t)
    (hu : UntouchedTask t) :
    ∀ t', (taskStep cfg env commits s i).tasks[i]? = some t' →
      UntouchedTask t' := by
  intro t' ht'
  obtain ⟨hphase, hpr, hiss, hlnk⟩ := hu
  have hfin : ∀ s₀ : DlState, s₀.tasks[i]? = some t →
      ∀ t'', (finishStep c i s₀ t).tasks[i]? = some t'' → UntouchedTask t'' := by
    intro s₀ ht₀ t'' ht''
    have hitruthy : issTruthy c.issueNumber = false := by rw [hno]; rfl
    rw [show finishStep c i s₀ t = setTask s₀ i { t with phase := .done } from by
      unfold finishStep
      rw [hitruthy]
      simp] at ht''
    rw [setTask_tasks_self s₀ i t _ ht₀] at ht''
    cases ht''
    exact ⟨Or.inr (Or.inr rfl), hpr, hiss, hlnk⟩
  rcases hphase with h | h | h
  · -- still at the entry point
    rw [show taskStep cfg env commits s i
        = if i < 5 + finishedCount s then startStep c i s t else s from by
      simp only [taskStep, ht, hc, h]] at ht'
    by_cases hgate : i < 5 + finishedCount s
    · rw [if_pos hgate] at ht'
      rw [show startStep c i s t = suspendFirstLookup c i s t from by
        simp only [startStep, hno]] at ht'
      rw [show (suspendFirstLookup c i s t).tasks[i]?
          = some { t with phase := .awaitFirstLookup } from
        setTask_tasks_self _ i t _ ht] at ht'
      cases ht'
      exact ⟨Or.inr (Or.inl rfl), hpr, hiss, hlnk⟩
    · rw [if_neg hgate] at ht'
      rw [ht] at ht'
      cases ht'
      exact ⟨Or.inl h, hpr, hiss, hlnk⟩
  · -- suspended at the first lookup
    rw [show taskStep cfg env commits s i = firstLookupStep cfg env c i s t from by
      simp only [taskStep, ht, hc, h]] at ht'
    rcases hp : env.prForCommit c.commitSHA with _ | p
    · rw [show firstLookupStep cfg env c i s t = finishStep c i s t from by
        unfold firstLookupStep
        rw [hp]] at ht'
      exact hfin s ht t' ht'
    · have hacc : acceptPR cfg (some p) = false := hp ▸ hrej
      rw [show firstLookupStep cfg env c i s t = finishStep c i s t from by
        unfold firstLookupStep
        rw [hp]
        simp [hacc]] at ht'
      exact hfin s ht t' ht'
  · -- already done: the step is disabled
    rw [show taskStep cfg env commits s i = s from by
      simp only [taskStep, ht, hc, h]] at ht'
    rw [ht] at ht'
    cases ht'
    exact ⟨Or.inr (Or.inr h), hpr, hiss, hlnk⟩

/-- `UntouchedTask` at slot `i` is preserved along any schedule. -/
theorem untouched_run (cfg : List String) (env : GhEnv)
    (commits : List CommitRec) (i : Nat) (c : CommitRec)
    (hc : commits[i]? = some c) (hno : c.issueNumber = none)
    (hrej : acceptPR cfg (env.prForCommit c.commitSHA) = false) :
    ∀ (sched : List SchedEv) (s : DlState),
    (∀ t, s.tasks[i]? = some t → UntouchedTask t) →
    ∀ t, (sched.foldl (dlStep cfg env commits) s).tasks[i]? = some t →
      UntouchedTask t := by
  intro sched
  induction sched with
  | nil => intro s h; exact h
  | cons e sched ih =>
    intro s h
    rw [List.foldl_cons]
    apply ih
    intro t ht'
    cases e with
    | task j =>
      by_cases hij : j = i
      · subst hij
        rw [show (dlStep cfg env commits s (SchedEv.task j))
            = taskStep cfg env commits s j from rfl] at ht'
        rcases hs : s.tasks[j]? with _ | t₀
        · rw [show taskStep cfg env commits s j = s from by
            simp only [taskStep, hs]] at ht'
          rw [hs] at ht'
          cases ht'
        · exact untouched_taskStep_self cfg env commits j c hc hno hrej s t₀
            hs (h t₀ hs) t ht'
      · rw [show (dlStep cfg env commits s (SchedEv.task j)) = taskStep cfg env commits s j
            from rfl] at ht'
        rw [taskStep_tasks_other cfg env commits s j i
          (fun hx => hij hx.symm)] at ht'
        exact h t ht'
    | entry k =>
      rw [show (dlStep cfg env commits s (SchedEv.entry k))
          = entryResolveStep env s k from rfl] at ht'
      rw [show (entryResolveStep env s k).tasks = s.tasks from
        entryResolveStep_tasks env s k] at ht'
      exact h t ht'

/-- C3: for a commit with no inline issue number, a commit-to-PR candidate
is accepted only when it is non-null, merged, has a truthy number, and its
base branch is configured; when that fails, the commit keeps `githubPr`,
`githubIssue` and `linkedIssues` unset through any schedule of the run. -/
theorem c3_rejected_candidate_unenriched (cfg : List String) (env : GhEnv)
    (commits : List CommitRec) (sched : List SchedEv) (i : Nat)
    (c : CommitRec) (hc : commits[i]? = some c)
    (hno : c.issueNumber = none)
    (hrej : ∀ p : PullReq, env.prForCommit c.commitSHA = some p →
      ¬(p.merged = true ∧ p.number ≠ 0 ∧ p.baseRefName ∈ cfg)) :
    ∀ t, (runDl cfg env commits sched).tasks[i]? = some t →
      t.githubPr = none ∧ t.githubIssue = none ∧ t.linkedIssues = none := by
  have hrej' : acceptPR cfg (env.prForCommit c.commitSHA) = false := by
    rcases hp : env.prForCommit c.commitSHA with _ | p
    · rfl
    · by_contra hx
      rw [Bool.not_eq_false] at hx
      have hx' := hx
      simp only [acceptPR, Bool.and_eq_true] at hx'
      obtain ⟨⟨h1, h2⟩, h3⟩ := hx'
      exact hrej p hp ⟨h1, by simpa using h2, by simpa using h3⟩
  intro t ht
  have hinit : ∀ t₀, (dlInit commits).tasks[i]? = some t₀ → UntouchedTask t₀ := by
    intro t₀ h₀
    unfold dlInit at h₀
    rw [List.getElem?_map] at h₀
    rcases hci : commits[i]? with _ | c₀
    · rw [hci] at h₀
      cases h₀
    · rw [hci] at h₀
      cases h₀
      exact ⟨Or.inl rfl, rfl, rfl, rfl⟩
  have := untouched_run cfg env commits i c hc hno hrej' sched
    (dlInit commits) hinit t ht
  exact ⟨this.2.1, this.2.2.1, this.2.2.2⟩

/-- C3 witness: the environment `envReject` offers only an unmerged PR for
`plainCommit` (which has no inline number); after a completing schedule
the mapper is done and the commit is unenriched. -/
theorem c3_witness :
    (runDl ["main"] envReject [plainCommit] [.task 0, .task 0]).tasks[0]?
      = some { phase := .done }
  ∧ (({ phase := .done } : TaskState).githubPr = none
      ∧ ({ phase := .done } : TaskState).githubIssue = none
      ∧ ({ phase := .done } : TaskState).linkedIssues = none) :=
  ⟨by decide,
   c3_rejected_candidate_unenriched ["main"] envReject [plainCommit]
     [.task 0, .task 0] 0 plainCommit (by decide) rfl
     (by
       intro p hp
       simp only [envReject] at hp
       injection hp with h
       subst h
       decide)
     { phase := .done } (by decide)⟩

/-! ## C2: entries-preservation lemmas -/

/-- Indexing into an extended list below the original length. -/
theorem getElem?_append_of_some {α : Type _} (l l' : List α) (k : Nat)
    (a : α) (h : l[k]? = some a) : (l ++ l')[k]? = some a := by
  rw [List.getElem?_append]
  have hlt : k < l.length := by
    by_contra hx
    rw [List.getElem?_eq_none (by omega)] at h
    cases h
  rw [if_pos hlt]
  exact h

/-- `finishStep` never changes the entry arena. -/
theorem finishStep_entries (c : CommitRec) (i : Nat) (s : DlState)
    (t : TaskState) : (finishStep c i s t).entries = s.entries := by
  unfold finishStep
  split <;> rfl

/-- `installEntry` only appends, preserving existing entries. -/
theorem installEntry_entries_get (i n : Nat) (fp : Option PullReq)
    (s : DlState) (t : TaskState) (k : Nat) (en : CacheEntry)
    (hk : s.entries[k]? = some en) :
    (installEntry i n fp s t).entries[k]? = some en := by
  show (s.entries ++ [{ prNumber := n, prAtCreation := fp }])[k]? = some en
  exact getElem?_append_of_some _ _ k en hk

/-- `cacheStep` preserves existing entries. -/
theorem cacheStep_entries_get (c : CommitRec) (i n : Nat)
    (fp : Option PullReq) (s : DlState) (t : TaskState) (k : Nat)
    (en : CacheEntry) (hk : s.entries[k]? = some en) :
    (cacheStep c i n fp s t).entries[k]? = some en := by
  unfold cacheStep
  split
  · exact hk
  · split
    · exact hk
    · exact installEntry_entries_get i n fp s t k en hk

/-- `startStep` preserves existing entries. -/
theorem startStep_entries_get (c : CommitRec) (i : Nat) (s : DlState)
    (t : TaskState) (k : Nat) (en : CacheEntry)
    (hk : s.entries[k]? = some en) :
    (startStep c i s t).entries[k]? = some en := by
  unfold startStep
  split
  · split
    · split
      · split
        · exact cacheStep_entries_get c i _ none s t k en hk
        · exact hk
      · exact hk
    · exact hk
  · exact hk

/-- `firstLookupStep` preserves existing entries. -/
theorem firstLookupStep_entries_get (cfg : List String) (env : GhEnv)
    (c : CommitRec) (i : Nat) (s : DlState) (t : TaskState) (k : Nat)
    (en : CacheEntry) (hk : s.entries[k]? = some en) :
    (firstLookupStep cfg env c i s t).entries[k]? = some en := by
  unfold firstLookupStep
  split
  · split
    · exact cacheStep_entries_get c i _ _ s t k en hk
    · rw [finishStep_entries]
      exact hk
  · rw [finishStep_entries]
    exact hk

/-- `secondLookupStep` preserves existing entries. -/
theorem secondLookupStep_entries_get (cfg : List String) (env : GhEnv)
    (c : CommitRec) (i n : Nat) (s : DlState) (t : TaskState) (k : Nat)
    (en : CacheEntry) (hk : s.entries[k]? = some en) :
    (secondLookupStep cfg env c i n s t).entries[k]? = some en := by
  unfold secondLookupStep
  exact installEntry_entries_get i n _ s t k en hk

/-- Master case analysis for C2: one scheduler step either leaves an
already-resolved entry untouched, or performs the back-fill — which
requires the stepping mapper to await exactly this entry, the stored `pr`
to be null, and the mapper's `foundPr` to be populated — writing
`foundPr` into the `pr` field and nothing else. -/
theorem dlStep_entry_result (cfg : List String) (env : GhEnv)
    (commits : List CommitRec) (s : DlState) (e : SchedEv) (k : Nat)
    (en : CacheEntry) (r : EntryRes)
    (hk : s.entries[k]? = some en) (hr : en.result = some r) :
    ((dlStep cfg env commits s e).entries[k]? = some en)
  ∨ (∃ (j : Nat) (t : TaskState) (fp : Option PullReq),
      e = SchedEv.task j ∧ s.tasks[j]? = some t
      ∧ t.phase = .awaitEntry k fp ∧ r.pr = none ∧ fp.isSome = true
      ∧ (dlStep cfg env commits s e).entries[k]?
          = some { en with result := some { r with pr := fp } }) := by
  cases e with
  | entry k' =>
    left
    show (entryResolveStep env s k').entries[k]? = some en
    unfold entryResolveStep
    rcases hke : s.entries[k']? with _ | en₁
    · simp only [hke]
      exact hk
    · simp only [hke]
      rcases hre : en₁.result with _ | r₁
      · simp only [hre]
        by_cases hkk : k = k'
        · subst hkk
          rw [hk] at hke
          cases hke
          rw [hr] at hre
          cases hre
        · show (s.entries.set k' _)[k]? = some en
          rw [List.getElem?_set_ne (fun hx => hkk hx.symm)]
          exact hk
      · simp only [hre]
        exact hk
  | task j =>
    rw [show dlStep cfg env commits s (SchedEv.task j)
        = taskStep cfg env commits s j from rfl]
    rcases hs : s.tasks[j]? with _ | t
    · left
      rw [show taskStep cfg env commits s j = s from by
        simp only [taskStep, hs]]
      exact hk
    · rcases hcj : commits[j]? with _ | c
      · left
        rw [show taskStep cfg env commits s j = s from by
          simp only [taskStep, hs, hcj]]
        exact hk
      · cases hφ : t.phase with
        | start =>
          left
          rw [show taskStep cfg env commits s j
              = if j < 5 + finishedCount s then startStep c j s t else s from by
            simp only [taskStep, hs, hcj, hφ]]
          split
          · exact startStep_entries_get c j s t k en hk
          · exact hk
        | awaitFirstLookup =>
          left
          rw [show taskStep cfg env commits s j
              = firstLookupStep cfg env c j s t from by
            simp only [taskStep, hs, hcj, hφ]]
          exact firstLookupStep_entries_get cfg env c j s t k en hk
        | awaitSecondLookup n =>
          left
          rw [show taskStep cfg env commits s j
              = secondLookupStep cfg env c j n s t from by
            simp only [taskStep, hs, hcj, hφ]]
          exact secondLookupStep_entries_get cfg env c j n s t k en hk
        | awaitEntry k₀ fp =>
          rw [show taskStep cfg env commits s j
              = entryResumeStep c j k₀ fp s t from by
            simp only [taskStep, hs, hcj, hφ]]
          unfold entryResumeStep
          rcases hke : s.entries[k₀]? with _ | en₁
          · simp only [hke]
            left
            exact hk
          · simp only [hke]
            rcases hre : en₁.result with _ | r₁
            · simp only [hre]
              left
              exact hk
            · simp only [hre]
              by_cases hb : (r₁.pr.isNone && fp.isSome) = true
              · rw [if_pos hb]
                rw [Bool.and_eq_true] at hb
                by_cases hkk : k = k₀
                · subst hkk
                  rw [hk] at hke
                  cases hke
                  rw [hr] at hre
                  cases hre
                  right
                  refine ⟨j, t, fp, rfl, hs, hφ, ?_, hb.2, ?_⟩
                  · exact Option.isNone_iff_eq_none.mp hb.1
                  · rw [finishStep_entries]
                    show (s.entries.set k _)[k]? = some _
                    rw [List.getElem?_set_self', hk]
                    rfl
                · left
                  rw [finishStep_entries]
                  show (s.entries.set k₀ _)[k]? = some en
                  rw [List.getElem?_set_ne (fun hx => hkk hx.symm)]
                  exact hk
              · rw [if_neg hb]
                left
                rw [finishStep_entries]
                exact hk
        | awaitIssue =>
          left
          rw [show taskStep cfg env commits s j
              = issueResumeStep env c j s t from by
            simp only [taskStep, hs, hcj, hφ]]
          exact hk
        | done =>
          left
          rw [show taskStep cfg env commits s j = s from by
            simp only [taskStep, hs, hcj, hφ]]
          exact hk

/-! ## C2: provenance of `foundPr` (reachability invariant) -/

/-- The only task state readable at the written slot is the written one. -/
theorem setTask_tasks_self_inv (s : DlState) (j : Nat) (x : TaskState) :
    ∀ t', (setTask s j x).tasks[j]? = some t' → t' = x := by
  intro t' h
  unfold setTask at h
  rw [List.getElem?_set_self'] at h
  rcases hx : s.tasks[j]? with _ | y
  · rw [hx] at h
    cases h
  · rw [hx] at h
    cases h
    rfl

/-- `suspendFirstLookup` only moves the task to `awaitFirstLookup`. -/
theorem suspendFirstLookup_phase (c : CommitRec) (i : Nat) (s : DlState)
    (t : TaskState) :
    ∀ t', (suspendFirstLookup c i s t).tasks[i]? = some t' →
      t' = { t with phase := .awaitFirstLookup } :=
  fun t' h => setTask_tasks_self_inv _ i _ t' h

/-- `finishStep` leaves the task awaiting the issue fetch or done. -/
theorem finishStep_phase (c : CommitRec) (i : Nat) (s : DlState)
    (t : TaskState) :
    ∀ t', (finishStep c i s t).tasks[i]? = some t' →
      t'.phase = .awaitIssue ∨ t'.phase = .done := by
  intro t' h
  unfold finishStep at h
  split at h
  · have := setTask_tasks_self_inv _ i _ t' h
    subst this
    exact Or.inl rfl
  · have := setTask_tasks_self_inv _ i _ t' h
    subst this
    exact Or.inr rfl

/-- `issueResumeStep` finishes the task. -/
theorem issueResumeStep_phase (env : GhEnv) (c : CommitRec) (i : Nat)
    (s : DlState) (t : TaskState) :
    ∀ t', (issueResumeStep env c i s t).tasks[i]? = some t' →
      t'.phase = .done := by
  intro t' h
  have := setTask_tasks_self_inv _ i _ t' h
  subst this
  rfl

/-- A task left awaiting an entry by `installEntry` holds the installer's
`foundPr`. -/
theorem installEntry_fp (i n : Nat) (fp₀ : Option PullReq) (s : DlState)
    (t : TaskState) :
    ∀ t', (installEntry i n fp₀ s t).tasks[i]? = some t' →
    ∀ (k : Nat) (fp : Option PullReq), t'.phase = .awaitEntry k fp →
      fp = fp₀ := by
  intro t' h k fp hph
  have := setTask_tasks_self_inv _ i _ t' h
  subst this
  cases hph
  rfl

/-- A task left awaiting an entry by `cacheStep` holds the `foundPr` it
entered the cache logic with. -/
theorem cacheStep_fp (c : CommitRec) (i n : Nat) (fp₀ : Option PullReq)
    (s : DlState) (t : TaskState) :
    ∀ t', (cacheStep c i n fp₀ s t).tasks[i]? = some t' →
    ∀ (k : Nat) (fp : Option PullReq), t'.phase = .awaitEntry k fp →
      fp = fp₀ := by
  intro t' h k fp hph
  unfold cacheStep at h
  split at h
  · have := setTask_tasks_self_inv _ i _ t' h
    subst this
    cases hph
    rfl
  · split at h
    · have := setTask_tasks_self_inv _ i _ t' h
      subst this
      cases hph
    · exact installEntry_fp i n fp₀ s t t' h k fp hph

/-- After one step of task `j`, a continuation awaiting an entry carries
either a null `foundPr`, or the accepted result of the task's own lookup,
or the `foundPr` the task already carried. -/
theorem taskStep_awaitEntry_cases (cfg : List String) (env : GhEnv)
    (commits : List CommitRec) (s : DlState) (j : Nat) (t₀ : TaskState)
    (c : CommitRec) (hs : s.tasks[j]? = some t₀) (hc : commits[j]? = some c) :
    ∀ t', (taskStep cfg env commits s j).tasks[j]? = some t' →
    ∀ (k : Nat) (fp : Option PullReq), t'.phase = .awaitEntry k fp →
      fp = none
      ∨ (fp = env.prForCommit c.commitSHA ∧ acceptPR cfg fp = true)
      ∨ t₀.phase = .awaitEntry k fp := by
  intro t' ht' k fp hph
  cases hφ : t₀.phase with
  | start =>
    rw [show taskStep cfg env commits s j
        = if j < 5 + finishedCount s then startStep c j s t₀ else s from by
      simp only [taskStep, hs, hc, hφ]] at ht'
    split at ht'
    · unfold startStep at ht'
      split at ht'
      · split at ht'
        · split at ht'
          · split at ht'
            · exact Or.inl (cacheStep_fp c j _ none s t₀ t' ht' k fp hph)
            · have := suspendFirstLookup_phase c j s t₀ t' ht'
              subst this
              cases hph
          · have := suspendFirstLookup_phase c j s t₀ t' ht'
            subst this
            cases hph
        · have := suspendFirstLookup_phase c j s t₀ t' ht'
          subst this
          cases hph
      · have := suspendFirstLookup_phase c j s t₀ t' ht'
        subst this
        cases hph
    · rw [hs] at ht'
      cases ht'
      rw [hφ] at hph
      cases hph
  | awaitFirstLookup =>
    rw [show taskStep cfg env commits s j = firstLookupStep cfg env c j s t₀
        from by simp only [taskStep, hs, hc, hφ]] at ht'
    rcases hp : env.prForCommit c.commitSHA with _ | p
    · rw [show firstLookupStep cfg env c j s t₀ = finishStep c j s t₀ from by
        unfold firstLookupStep
        simp only [hp]] at ht'
      rcases finishStep_phase c j s t₀ t' ht' with hd | hd <;>
        rw [hph] at hd <;> cases hd
    · by_cases hacc : acceptPR cfg (some p) = true
      · rw [show firstLookupStep cfg env c j s t₀
            = cacheStep c j p.number (some p) s t₀ from by
          unfold firstLookupStep
          simp only [hp, hacc, if_true]] at ht'
        have hfp := cacheStep_fp c j p.number (some p) s t₀ t' ht' k fp hph
        refine Or.inr (Or.inl ⟨?_, ?_⟩)
        · exact hfp
        · rw [hfp]
          exact hacc
      · rw [Bool.not_eq_true] at hacc
        rw [show firstLookupStep cfg env c j s t₀ = finishStep c j s t₀ from by
          unfold firstLookupStep
          simp only [hp, hacc, Bool.false_eq_true, if_false]] at ht'
        rcases finishStep_phase c j s t₀ t' ht' with hd | hd <;>
          rw [hph] at hd <;> cases hd
  | awaitSecondLookup n =>
    rw [show taskStep cfg env commits s j = secondLookupStep cfg env c j n s t₀
        from by simp only [taskStep, hs, hc, hφ]] at ht'
    unfold secondLookupStep at ht'
    have hfp := installEntry_fp j n _ s t₀ t' ht' k fp hph
    by_cases hacc : acceptPR cfg (env.prForCommit c.commitSHA) = true
    · refine Or.inr (Or.inl ⟨?_, ?_⟩)
      · rw [hfp, if_pos hacc]
      · rw [hfp, if_pos hacc]
        exact hacc
    · left
      rw [hfp, if_neg hacc]
  | awaitEntry k₀ fp₀ =>
    rw [show taskStep cfg env commits s j = entryResumeStep c j k₀ fp₀ s t₀
        from by simp only [taskStep, hs, hc, hφ]] at ht'
    unfold entryResumeStep at ht'
    rcases hke : s.entries[k₀]? with _ | en₁
    · simp only [hke] at ht'
      rw [hs] at ht'
      have htt : t₀ = t' := Option.some_inj.mp ht'
      rw [← htt] at hph
      rw [hφ] at hph
      exact Or.inr (Or.inr hph)
    · simp only [hke] at ht'
      rcases hre : en₁.result with _ | r₁
      · simp only [hre] at ht'
        rw [hs] at ht'
        have htt : t₀ = t' := Option.some_inj.mp ht'
        rw [← htt] at hph
        rw [hφ] at hph
        exact Or.inr (Or.inr hph)
      · simp only [hre] at ht'
        by_cases hb : (r₁.pr.isNone && fp₀.isSome) = true
        · rw [if_pos hb] at ht'
          rcases finishStep_phase _ j _ _ t' ht' with hd | hd <;>
            rw [hph] at hd <;> cases hd
        · rw [if_neg hb] at ht'
          rcases finishStep_phase _ j _ _ t' ht' with hd | hd <;>
            rw [hph] at hd <;> cases hd
  | awaitIssue =>
    rw [show taskStep cfg env commits s j = issueResumeStep env c j s t₀
        from by simp only [taskStep, hs, hc, hφ]] at ht'
    have := issueResumeStep_phase env c j s t₀ t' ht'
    rw [hph] at this
    cases this
  | done =>
    rw [show taskStep cfg env commits s j = s from by
      simp only [taskStep, hs, hc, hφ]] at ht'
    rw [hs] at ht'
    cases ht'
    rw [hφ] at hph
    cases hph

/-- One scheduler step preserves the `foundPr` provenance invariant. -/
theorem foundInv_step (cfg : List String) (env : GhEnv)
    (commits : List CommitRec) (s : DlState) (e : SchedEv)
    (h : FoundPrInv cfg env commits s) :
    FoundPrInv cfg env commits (dlStep cfg env commits s e) := by
  intro i t' ht' k fp hph
  cases e with
  | entry k' =>
    rw [show dlStep cfg env commits s (SchedEv.entry k')
        = entryResolveStep env s k' from rfl] at ht'
    rw [entryResolveStep_tasks] at ht'
    exact h i t' ht' k fp hph
  | task j =>
    rw [show dlStep cfg env commits s (SchedEv.task j)
        = taskStep cfg env commits s j from rfl] at ht'
    by_cases hij : i = j
    · subst hij
      rcases hs : s.tasks[i]? with _ | t₀
      · rw [show taskStep cfg env commits s i = s from by
          simp only [taskStep, hs]] at ht'
        rw [hs] at ht'
        cases ht'
      · rcases hcj : commits[i]? with _ | c
        · rw [show taskStep cfg env commits s i = s from by
            simp only [taskStep, hs, hcj]] at ht'
          rw [hs] at ht'
          have htt : t₀ = t' := Option.some_inj.mp ht'
          rw [← htt] at hph
          rcases h i t₀ hs k fp hph with hx | ⟨c', hc', hx2, hx3⟩
          · exact Or.inl hx
          · rw [hcj] at hc'
            cases hc'
        · rcases taskStep_awaitEntry_cases cfg env commits s i t₀ c hs hcj
            t' ht' k fp hph with h1 | h2 | h3
          · exact Or.inl h1
          · exact Or.inr ⟨c, rfl, h2.1, h2.2⟩
          · rcases h i t₀ hs k fp h3 with hx | ⟨c', hc', hx2, hx3⟩
            · exact Or.inl hx
            · rw [hcj] at hc'
              exact Or.inr ⟨c', hc', hx2, hx3⟩
    · rw [taskStep_tasks_other cfg env commits s j i hij] at ht'
      exact h i t' ht' k fp hph

/-- The `foundPr` provenance invariant holds in every reachable state. -/
theorem foundInv_run (cfg : List String) (env : GhEnv)
    (commits : List CommitRec) (sched : List SchedEv) :
    FoundPrInv cfg env commits (runDl cfg env commits sched) := by
  have hgen : ∀ (sch : List SchedEv) (s : DlState),
      FoundPrInv cfg env commits s →
      FoundPrInv cfg env commits (sch.foldl (dlStep cfg env commits) s) := by
    intro sch
    induction sch with
    | nil => intro s h; exact h
    | cons e sch ih =>
      intro s h
      rw [List.foldl_cons]
      exact ih _ (foundInv_step cfg env commits s e h)
  apply hgen
  intro i t ht k fp hph
  unfold dlInit at ht
  rw [List.getElem?_map] at ht
  rcases hci : commits[i]? with _ | c₀
  · rw [hci] at ht
    cases ht
  · rw [hci] at ht
    cases ht
    cases hph

/-- C2: a cache entry's resolved `pr` field transitions only from null to
populated.  First part: a populated `pr` survives any further scheduler
step with the whole result object unchanged.  Second part: any change to a
resolved result is the back-fill — it finds `pr` null, changes nothing but
`pr`, and writes exactly the stepping commit's own accepted lookup result
(non-null, merged, truthy number, configured base branch). -/
theorem c2_backfill_null_to_populated (cfg : List String) (env : GhEnv)
    (commits : List CommitRec) (sched : List SchedEv) (e : SchedEv)
    (k : Nat) :
    (∀ en r, (runDl cfg env commits sched).entries[k]? = some en →
      en.result = some r → r.pr.isSome = true →
      (dlStep cfg env commits (runDl cfg env commits sched) e).entries[k]?
        = some en)
  ∧ (∀ en en' r r',
      (runDl cfg env commits sched).entries[k]? = some en →
      (dlStep cfg env commits (runDl cfg env commits sched) e).entries[k]?
        = some en' →
      en.result = some r → en'.result = some r' → r' ≠ r →
      r.pr = none ∧ r'.linkedIssues = r.linkedIssues
      ∧ ∃ (j : Nat) (c : CommitRec) (p : PullReq),
          e = SchedEv.task j ∧ commits[j]? = some c
          ∧ r'.pr = some p ∧ env.prForCommit c.commitSHA = some p
          ∧ p.merged = true ∧ p.number ≠ 0 ∧ p.baseRefName ∈ cfg) := by
  constructor
  · intro en r hk hr hpr
    rcases dlStep_entry_result cfg env commits _ e k en r hk hr with
      h1 | ⟨j, t, fp, _, _, _, hnone, _, _⟩
    · exact h1
    · rw [hnone] at hpr
      cases hpr
  · intro en en' r r' hk hk' hr hr' hne
    rcases dlStep_entry_result cfg env commits _ e k en r hk hr with
      h1 | ⟨j, t, fp, he, hs, hφ, hnone, hsome, hset⟩
    · rw [h1] at hk'
      cases hk'
      rw [hr] at hr'
      cases hr'
      exact absurd rfl hne
    · rw [hset] at hk'
      cases hk'
      have hr'' : r' = { r with pr := fp } := by
        cases hr'
        rfl
      subst hr''
      have hinv := foundInv_run cfg env commits sched j t hs k fp hφ
      rcases hinv with hfpn | ⟨c, hcj, hfp, hacc⟩
      · rw [hfpn] at hsome
        cases hsome
      · rcases hfpp : fp with _ | p
        · rw [hfpp] at hsome
          cases hsome
        · subst hfpp
          have hacc' := hacc
          simp only [acceptPR, Bool.and_eq_true] at hacc'
          obtain ⟨⟨h1, h2⟩, h3⟩ := hacc'
          exact ⟨hnone, rfl, j, c, p, he, hcj, rfl, hfp.symm, h1,
            by simpa using h2, by simpa using h3⟩

/-- C2 witness: in the `envAccept` run the cache entry for PR 42 resolves
with a populated `pr`; a further scheduler step leaves the entry (and its
`pr`) unchanged. -/
theorem c2_witness :
    ((runDl ["main"] envAccept [plainCommit]
        [.task 0, .task 0, .entry 0]).entries[0]? = some entryW)
  ∧ entryW.result = some resW
  ∧ resW.pr.isSome = true
  ∧ (dlStep ["main"] envAccept [plainCommit]
      (runDl ["main"] envAccept [plainCommit] [.task 0, .task 0, .entry 0])
      (SchedEv.entry 0)).entries[0]? = some entryW :=
  ⟨by decide, by decide, by decide,
   (c2_backfill_null_to_populated ["main"] envAccept [plainCommit]
      [.task 0, .task 0, .entry 0] (SchedEv.entry 0) 0).1 entryW resW
      (by decide) (by decide) (by decide)⟩

end Changelog
